import Mathlib

/-!
Verification of the `bidimap` library (`src/lib.rs`): a bidirectional map
`HashBidiMap` built from two `HashMap`s (`left_to_right : HashMap<Rc<K1>, Rc<K2>>`
and `right_to_left : HashMap<Rc<K2>, Rc<K1>>`), together with the read-only view
structs `LeftMap` / `RightMap` and their `get` / `Index` implementations.

Each `HashMap` is modelled by an association list with distinct keys (the
distinctness is proved to be preserved from the empty map), and the observable
`HashMap` operations used by the source (`get`, `remove`, `insert`, `len`) are
modelled by `lookupA`, `removeA`, `insertA`, `List.length`. The `Rc` sharing is
irrelevant to the observable behaviour (lookups compare by value), so keys are
stored directly.
-/

/-- Model of `HashMap::get`: the value of the first entry whose key equals `k`. -/
def lookupA {K V : Type} [DecidableEq K] : List (K × V) → K → Option V
  | [], _ => none
  | p :: rest, k => if p.1 = k then some p.2 else lookupA rest k

/-- Model of `HashMap::remove`: drop every entry whose key equals `k` (on a
list with distinct keys this removes at most one entry, as `HashMap` does). -/
def removeA {K V : Type} [DecidableEq K] : List (K × V) → K → List (K × V)
  | [], _ => []
  | p :: rest, k => if p.1 = k then removeA rest k else p :: removeA rest k

/-- Model of `HashMap::insert`: remove any old entry for `k`, add `(k, v)`. -/
def insertA {K V : Type} [DecidableEq K] (m : List (K × V)) (k : K) (v : V) :
    List (K × V) :=
  (k, v) :: removeA m k

/-- The keys of the association list are pairwise distinct (true of every list
that models a `HashMap` state). -/
def KeysNodup {K V : Type} (m : List (K × V)) : Prop :=
  (m.map Prod.fst).Nodup

/-- The struct `HashBidiMap<K1, K2>` with its two fields
`left_to_right` and `right_to_left`. -/
structure HashBidiMap (K1 K2 : Type) where
  left_to_right : List (K1 × K2)
  right_to_left : List (K2 × K1)

/-- `HashBidiMap::new`: both tables empty. -/
def HashBidiMap.new {K1 K2 : Type} : HashBidiMap K1 K2 :=
  { left_to_right := [], right_to_left := [] }

/-- `HashBidiMap::insert` from `src/lib.rs` lines 75-89, step for step:
1. if `right_to_left.get(&k2) = Some(kk1)`, remove `kk1` from `left_to_right`;
2. if `left_to_right.get(&k1) = Some(kk2)` — looked up in the table as mutated
   by step 1 — remove `kk2` from `right_to_left`;
3. insert `k1 ↦ k2` forward and `k2 ↦ k1` backward. -/
def HashBidiMap.insert {K1 K2 : Type} [DecidableEq K1] [DecidableEq K2]
    (self : HashBidiMap K1 K2) (k1 : K1) (k2 : K2) : HashBidiMap K1 K2 :=
  let ltr :=
    match lookupA self.right_to_left k2 with
    | some kk1 => removeA self.left_to_right kk1
    | none => self.left_to_right
  let rtl :=
    match lookupA ltr k1 with
    | some kk2 => removeA self.right_to_left kk2
    | none => self.right_to_left
  { left_to_right := insertA ltr k1 k2, right_to_left := insertA rtl k2 k1 }

/-- `HashBidiMap::get1`: reverse lookup, `right_to_left.get(k2)`. -/
def HashBidiMap.get1 {K1 K2 : Type} [DecidableEq K2]
    (self : HashBidiMap K1 K2) (k2 : K2) : Option K1 :=
  lookupA self.right_to_left k2

/-- `HashBidiMap::get2`: forward lookup, `left_to_right.get(k1)`. -/
def HashBidiMap.get2 {K1 K2 : Type} [DecidableEq K1]
    (self : HashBidiMap K1 K2) (k1 : K1) : Option K2 :=
  lookupA self.left_to_right k1

/-- `HashBidiMap::len`: `left_to_right.len()`. -/
def HashBidiMap.len {K1 K2 : Type} (self : HashBidiMap K1 K2) : Nat :=
  self.left_to_right.length

/-- The `Extend` impl: `for (k1, k2) in iter { self.insert(k1, k2) }`. -/
def HashBidiMap.extend {K1 K2 : Type} [DecidableEq K1] [DecidableEq K2] :
    HashBidiMap K1 K2 → List (K1 × K2) → HashBidiMap K1 K2
  | self, [] => self
  | self, (k1, k2) :: rest => HashBidiMap.extend (self.insert k1 k2) rest

/-- The view struct `LeftMap<'parent, K1, K2>` (forward view); it only holds a
reference to the parent `BidiMap`. -/
structure LeftMap (K1 K2 : Type) where
  bidi : HashBidiMap K1 K2

/-- The view struct `RightMap<'parent, K1, K2>` (reverse view). -/
structure RightMap (K1 K2 : Type) where
  bidi : HashBidiMap K1 K2

/-- `MapLike::get` for `LeftMap`: `self.bidi.get2(k)`. -/
def LeftMap.get {K1 K2 : Type} [DecidableEq K1]
    (self : LeftMap K1 K2) (k : K1) : Option K2 :=
  self.bidi.get2 k

/-- `MapLike::get` for `RightMap`: `self.bidi.get1(k)`. -/
def RightMap.get {K1 K2 : Type} [DecidableEq K2]
    (self : RightMap K1 K2) (k : K2) : Option K1 :=
  self.bidi.get1 k

/-- `BidiMap::as_map`: build the forward view. -/
def HashBidiMap.as_map {K1 K2 : Type} (self : HashBidiMap K1 K2) :
    LeftMap K1 K2 :=
  { bidi := self }

/-- `BidiMap::as_inv_map`: build the reverse view. -/
def HashBidiMap.as_inv_map {K1 K2 : Type} (self : HashBidiMap K1 K2) :
    RightMap K1 K2 :=
  { bidi := self }

/-- Outcome of an operation that may terminate the program: either a value or
a fatal error carrying the panic message. -/
inductive IndexResult (V : Type) where
  | ok : V → IndexResult V
  | fatal : String → IndexResult V
deriving DecidableEq

/-- `Index::index` for `LeftMap`: `self.get(&index).expect("Oops!")` — the
value when present, otherwise a fatal error with message `"Oops!"`. -/
def LeftMap.index {K1 K2 : Type} [DecidableEq K1]
    (self : LeftMap K1 K2) (k : K1) : IndexResult K2 :=
  match self.get k with
  | some v => IndexResult.ok v
  | none => IndexResult.fatal "Oops!"

/-- `Index::index` for `RightMap`: `self.get(&index).expect("Oops!")`. -/
def RightMap.index {K1 K2 : Type} [DecidableEq K2]
    (self : RightMap K1 K2) (k : K2) : IndexResult K1 :=
  match self.get k with
  | some v => IndexResult.ok v
  | none => IndexResult.fatal "Oops!"

/-- States reachable from a fresh empty map by the public mutating API
(`insert` calls, and `extend` which loops over `insert`). -/
inductive Reachable {K1 K2 : Type} [DecidableEq K1] [DecidableEq K2] :
    HashBidiMap K1 K2 → Prop where
  | base : Reachable HashBidiMap.new
  | step : ∀ (m : HashBidiMap K1 K2) (k1 : K1) (k2 : K2),
      Reachable m → Reachable (m.insert k1 k2)
  | ext : ∀ (m : HashBidiMap K1 K2) (ps : List (K1 × K2)),
      Reachable m → Reachable (m.extend ps)

/-- The two tables agree: the forward table maps `k1` to `k2` exactly when the
reverse table maps `k2` to `k1`. -/
def HashBidiMap.Consistent {K1 K2 : Type} [DecidableEq K1] [DecidableEq K2]
    (m : HashBidiMap K1 K2) : Prop :=
  ∀ (k1 : K1) (k2 : K2), m.get2 k1 = some k2 ↔ m.get1 k2 = some k1

/-- Invariant of every reachable state: both tables have distinct keys and the
two tables are mutually consistent. -/
def HashBidiMap.Inv {K1 K2 : Type} [DecidableEq K1] [DecidableEq K2]
    (m : HashBidiMap K1 K2) : Prop :=
  KeysNodup m.left_to_right ∧ KeysNodup m.right_to_left ∧ m.Consistent

section ListModelLemmas

variable {K V : Type} [DecidableEq K]

theorem lookupA_removeA (m : List (K × V)) (k k' : K) :
    lookupA (removeA m k) k' = if k' = k then none else lookupA m k' := by
  induction m with
  | nil => simp [removeA, lookupA]
  | cons p rest ih =>
    simp only [removeA]
    by_cases hpk : p.1 = k
    · rw [if_pos hpk, ih]
      by_cases hk' : k' = k
      · rw [if_pos hk', if_pos hk']
      · rw [if_neg hk', if_neg hk']
        show lookupA rest k' = lookupA (p :: rest) k'
        simp only [lookupA]
        rw [if_neg (fun h : p.1 = k' => hk' (h.symm.trans hpk))]
    · rw [if_neg hpk]
      show lookupA (p :: removeA rest k) k' = _
      simp only [lookupA, ih]
      by_cases hpk' : p.1 = k'
      · have hk' : ¬ k' = k := fun h => hpk (hpk'.trans h)
        rw [if_pos hpk', if_neg hk', if_pos hpk']
      · by_cases hk' : k' = k <;> simp [hk', hpk', hpk]

theorem lookupA_insertA (m : List (K × V)) (k k' : K) (v : V) :
    lookupA (insertA m k v) k' = if k' = k then some v else lookupA m k' := by
  simp only [insertA, lookupA, lookupA_removeA]
  by_cases h : k' = k
  · rw [if_pos h.symm, if_pos h]
  · rw [if_neg (fun hh : k = k' => h hh.symm), if_neg h, if_neg h]

theorem lookupA_eq_none_iff (m : List (K × V)) (k : K) :
    lookupA m k = none ↔ k ∉ m.map Prod.fst := by
  induction m with
  | nil => simp [lookupA]
  | cons p rest ih =>
    simp only [lookupA, List.map_cons, List.mem_cons]
    by_cases hpk : p.1 = k
    · simp [hpk]
    · rw [if_neg hpk, ih]
      have hkp : ¬ k = p.1 := fun h => hpk h.symm
      simp [hkp]

theorem removeA_eq_of_lookupA_none (m : List (K × V)) (k : K)
    (h : lookupA m k = none) : removeA m k = m := by
  induction m with
  | nil => rfl
  | cons p rest ih =>
    simp only [lookupA] at h
    by_cases hpk : p.1 = k
    · simp [hpk] at h
    · simp only [removeA, hpk, if_neg, not_false_iff]
      rw [ih]
      simpa [hpk] using h

theorem length_removeA_add_one (m : List (K × V)) (k : K) (v : V)
    (hnd : KeysNodup m) (hv : lookupA m k = some v) :
    (removeA m k).length + 1 = m.length := by
  induction m with
  | nil => simp [lookupA] at hv
  | cons p rest ih =>
    simp only [KeysNodup, List.map_cons, List.nodup_cons] at hnd
    by_cases hpk : p.1 = k
    · have hrest : lookupA rest k = none := by
        rw [lookupA_eq_none_iff]
        exact hpk ▸ hnd.1
      simp [removeA, hpk, removeA_eq_of_lookupA_none rest k hrest]
    · simp only [lookupA, hpk, if_neg, not_false_iff] at hv
      simp only [removeA, hpk, if_neg, not_false_iff, List.length_cons]
      have := ih hnd.2 hv
      omega

theorem removeA_sublist (m : List (K × V)) (k : K) :
    List.Sublist (removeA m k) m := by
  induction m with
  | nil => simp [removeA]
  | cons p rest ih =>
    by_cases hpk : p.1 = k
    · simp only [removeA, hpk, if_pos]
      exact ih.cons p
    · simp only [removeA, hpk, if_neg, not_false_iff]
      exact ih.cons₂ p

theorem keysNodup_removeA (m : List (K × V)) (k : K) (h : KeysNodup m) :
    KeysNodup (removeA m k) :=
  ((removeA_sublist m k).map Prod.fst).nodup h

theorem not_mem_keys_removeA (m : List (K × V)) (k : K) :
    k ∉ (removeA m k).map Prod.fst := by
  rw [← lookupA_eq_none_iff, lookupA_removeA]
  simp

theorem keysNodup_insertA (m : List (K × V)) (k : K) (v : V)
    (h : KeysNodup m) : KeysNodup (insertA m k v) := by
  simp only [insertA, KeysNodup, List.map_cons, List.nodup_cons]
  exact ⟨not_mem_keys_removeA m k, keysNodup_removeA m k h⟩

theorem mem_of_lookupA_some (m : List (K × V)) (k : K) (v : V)
    (h : lookupA m k = some v) : (k, v) ∈ m := by
  induction m with
  | nil => simp [lookupA] at h
  | cons p rest ih =>
    by_cases hpk : p.1 = k
    · simp only [lookupA, hpk, if_pos, Option.some_inj] at h
      have heq : (k, v) = p := by rw [← hpk, ← h]
      exact heq ▸ List.mem_cons_self p rest
    · simp only [lookupA, hpk, if_neg, not_false_iff] at h
      exact List.mem_cons_of_mem p (ih h)

theorem lookupA_of_mem_nodup (m : List (K × V)) (k : K) (v : V)
    (hnd : KeysNodup m) (h : (k, v) ∈ m) : lookupA m k = some v := by
  induction m with
  | nil => simp at h
  | cons p rest ih =>
    simp only [KeysNodup, List.map_cons, List.nodup_cons] at hnd
    rcases List.mem_cons.mp h with heq | hmem
    · simp [lookupA, ← heq]
    · have hk : k ∈ rest.map Prod.fst :=
        List.mem_map.mpr ⟨(k, v), hmem, rfl⟩
      have hpk : p.1 ≠ k := fun hh => hnd.1 (hh ▸ hk)
      simp only [lookupA, hpk, if_neg, not_false_iff]
      exact ih hnd.2 hmem

end ListModelLemmas

section EngineLemmas

variable {K1 K2 : Type} [DecidableEq K1] [DecidableEq K2]

theorem get2_insert (m : HashBidiMap K1 K2) (k1 j1 : K1) (k2 : K2) :
    (m.insert k1 k2).get2 j1 =
      if j1 = k1 then some k2
      else if m.get1 k2 = some j1 then none
      else m.get2 j1 := by
  rcases hr : m.get1 k2 with _ | kk1 <;>
      simp only [HashBidiMap.get1] at hr <;>
      simp only [HashBidiMap.insert, HashBidiMap.get2, HashBidiMap.get1, hr,
        lookupA_insertA, lookupA_removeA]
  · simp
  · by_cases h1 : j1 = k1
    · simp [h1]
    · by_cases hj : j1 = kk1 <;> simp [h1, hj, eq_comm]

theorem get1_insert (m : HashBidiMap K1 K2) (hc : m.Consistent)
    (k1 : K1) (k2 j2 : K2) :
    (m.insert k1 k2).get1 j2 =
      if j2 = k2 then some k1
      else if m.get2 k1 = some j2 then none
      else m.get1 j2 := by
  rcases hr : m.get1 k2 with _ | kk1 <;>
      simp only [HashBidiMap.get1] at hr
  · rcases hf : m.get2 k1 with _ | kk2 <;>
        simp only [HashBidiMap.get2] at hf <;>
        simp only [HashBidiMap.insert, HashBidiMap.get1, HashBidiMap.get2, hr, hf,
          lookupA_insertA, lookupA_removeA]
    · simp
    · by_cases h2 : j2 = k2
      · simp [h2]
      · by_cases hj : j2 = kk2 <;> simp [h2, hj, eq_comm]
  · by_cases hk : k1 = kk1
    · subst hk
      have hfk : m.get2 k1 = some k2 :=
        (hc k1 k2).mpr (by simpa [HashBidiMap.get1] using hr)
      simp only [HashBidiMap.get2] at hfk
      simp only [HashBidiMap.insert, HashBidiMap.get1, HashBidiMap.get2, hr, hfk,
        lookupA_insertA, lookupA_removeA, eq_self_iff_true, ite_true]
      by_cases h2 : j2 = k2
      · simp [h2]
      · rw [if_neg h2, if_neg h2,
          if_neg (fun h : (some k2 : Option K2) = some j2 =>
            h2 (Option.some_inj.mp h).symm)]
    · rcases hf : m.get2 k1 with _ | kk2 <;>
          simp only [HashBidiMap.get2] at hf <;>
          simp only [HashBidiMap.insert, HashBidiMap.get1, HashBidiMap.get2, hr, hf,
            lookupA_insertA, lookupA_removeA, if_neg hk]
      · simp
      · by_cases h2 : j2 = k2
        · simp [h2]
        · by_cases hj : j2 = kk2 <;> simp [h2, hj, eq_comm]

theorem keysNodup_insert_left (m : HashBidiMap K1 K2) (k1 : K1) (k2 : K2)
    (h : KeysNodup m.left_to_right) :
    KeysNodup (m.insert k1 k2).left_to_right := by
  simp only [HashBidiMap.insert]
  rcases lookupA m.right_to_left k2 with _ | kk1
  · exact keysNodup_insertA _ _ _ h
  · exact keysNodup_insertA _ _ _ (keysNodup_removeA _ _ h)

theorem keysNodup_insert_right (m : HashBidiMap K1 K2) (k1 : K1) (k2 : K2)
    (h : KeysNodup m.right_to_left) :
    KeysNodup (m.insert k1 k2).right_to_left := by
  simp only [HashBidiMap.insert]
  rcases lookupA m.right_to_left k2 with _ | kk1 <;>
      [rcases lookupA m.left_to_right k1 with _ | kk2;
       rcases lookupA (removeA m.left_to_right kk1) k1 with _ | kk2] <;>
    first
      | exact keysNodup_insertA _ _ _ h
      | exact keysNodup_insertA _ _ _ (keysNodup_removeA _ _ h)

theorem consistent_insert (m : HashBidiMap K1 K2) (hc : m.Consistent)
    (k1 : K1) (k2 : K2) : (m.insert k1 k2).Consistent := by
  intro j1 j2
  rw [get2_insert, get1_insert m hc]
  by_cases h1 : j1 = k1 <;> by_cases h2 : j2 = k2
  · simp [h1, h2]
  · subst h1
    rw [if_pos rfl, if_neg h2]
    constructor
    · intro h
      exact absurd (Option.some_inj.mp h) (fun hh => h2 hh.symm)
    · intro h
      by_cases hf : m.get2 j1 = some j2
      · rw [if_pos hf] at h
        exact absurd h (by simp)
      · rw [if_neg hf] at h
        exact absurd ((hc j1 j2).mpr h) hf
  · subst h2
    rw [if_pos rfl, if_neg h1]
    constructor
    · intro h
      by_cases hg : m.get1 j2 = some j1
      · rw [if_pos hg] at h
        exact absurd h (by simp)
      · rw [if_neg hg] at h
        exact absurd ((hc j1 j2).mp h) hg
    · intro h
      exact absurd (Option.some_inj.mp h) (fun hh => h1 hh.symm)
  · rw [if_neg h1, if_neg h2]
    by_cases hA : m.get1 k2 = some j1 <;> by_cases hB : m.get2 k1 = some j2
    · rw [if_pos hA, if_pos hB]
      simp
    · rw [if_pos hA, if_neg hB]
      constructor
      · intro h
        exact absurd h (by simp)
      · intro h
        have hx : m.get2 j1 = some j2 := (hc j1 j2).mpr h
        have hy : m.get2 j1 = some k2 := (hc j1 k2).mpr hA
        exact absurd (Option.some_inj.mp (hx.symm.trans hy)) h2
    · rw [if_neg hA, if_pos hB]
      constructor
      · intro h
        have hx : m.get1 j2 = some j1 := (hc j1 j2).mp h
        have hy : m.get1 j2 = some k1 := (hc k1 j2).mp hB
        exact absurd (Option.some_inj.mp (hx.symm.trans hy)) h1
      · intro h
        exact absurd h (by simp)
    · rw [if_neg hA, if_neg hB]
      exact hc j1 j2

theorem inv_new : (HashBidiMap.new : HashBidiMap K1 K2).Inv := by
  refine ⟨?_, ?_, ?_⟩ <;>
    simp [HashBidiMap.new, KeysNodup, HashBidiMap.Consistent,
      HashBidiMap.get1, HashBidiMap.get2, lookupA]

theorem inv_insert (m : HashBidiMap K1 K2) (h : m.Inv) (k1 : K1) (k2 : K2) :
    (m.insert k1 k2).Inv :=
  ⟨keysNodup_insert_left m k1 k2 h.1, keysNodup_insert_right m k1 k2 h.2.1,
    consistent_insert m h.2.2 k1 k2⟩

theorem inv_extend (m : HashBidiMap K1 K2) (h : m.Inv) (ps : List (K1 × K2)) :
    (m.extend ps).Inv := by
  induction ps generalizing m with
  | nil => exact h
  | cons p rest ih =>
    rcases p with ⟨k1, k2⟩
    exact ih (m.insert k1 k2) (inv_insert m h k1 k2)

theorem reachable_inv (m : HashBidiMap K1 K2) (h : Reachable m) : m.Inv := by
  induction h with
  | base => exact inv_new
  | step m k1 k2 _ ih => exact inv_insert m ih k1 k2
  | ext m ps _ ih => exact inv_extend m ih ps

theorem length_eq_of_inv (m : HashBidiMap K1 K2) (h : m.Inv) :
    m.left_to_right.length = m.right_to_left.length := by
  obtain ⟨hL, hR, hc⟩ := h
  simp only [HashBidiMap.Consistent, HashBidiMap.get1, HashBidiMap.get2] at hc
  have hmem : ∀ p : K2 × K1,
      p ∈ m.left_to_right.map Prod.swap ↔ p ∈ m.right_to_left := by
    rintro ⟨b, a⟩
    simp only [List.mem_map]
    constructor
    · rintro ⟨⟨a', b'⟩, hmem, hswap⟩
      have hb : b' = b := congrArg Prod.fst hswap
      have ha : a' = a := congrArg Prod.snd hswap
      rw [hb, ha] at hmem
      have h1 : lookupA m.left_to_right a = some b :=
        lookupA_of_mem_nodup _ _ _ hL hmem
      exact mem_of_lookupA_some _ _ _ ((hc a b).mp h1)
    · intro hmem
      have h1 : lookupA m.right_to_left b = some a :=
        lookupA_of_mem_nodup _ _ _ hR hmem
      exact ⟨(a, b), mem_of_lookupA_some _ _ _ ((hc a b).mpr h1), rfl⟩
  have hnd1 : (m.left_to_right.map Prod.swap).Nodup :=
    (List.Nodup.of_map Prod.fst hL).map Prod.swap_injective
  have hnd2 : m.right_to_left.Nodup := List.Nodup.of_map Prod.fst hR
  have hperm := (List.perm_ext_iff_of_nodup hnd1 hnd2).mpr hmem
  calc m.left_to_right.length
      = (m.left_to_right.map Prod.swap).length := (List.length_map _ _).symm
    _ = m.right_to_left.length := hperm.length_eq

theorem len_insert_fresh (m : HashBidiMap K1 K2) (k1 : K1) (k2 : K2)
    (hf : m.get2 k1 = none) (hr : m.get1 k2 = none) :
    (m.insert k1 k2).len = m.len + 1 := by
  simp only [HashBidiMap.get1] at hr
  simp only [HashBidiMap.get2] at hf
  simp only [HashBidiMap.insert, HashBidiMap.len, hr, insertA,
    removeA_eq_of_lookupA_none _ _ hf, List.length_cons]

theorem len_insert_same (m : HashBidiMap K1 K2) (k1 : K1) (k2 : K2)
    (hnd : KeysNodup m.left_to_right) (hc : m.Consistent)
    (hp : m.get2 k1 = some k2) :
    (m.insert k1 k2).len = m.len := by
  have hr : m.get1 k2 = some k1 := (hc k1 k2).mp hp
  simp only [HashBidiMap.get1] at hr
  simp only [HashBidiMap.get2] at hp
  have hltr : lookupA (removeA m.left_to_right k1) k1 = none := by
    rw [lookupA_removeA, if_pos rfl]
  simp only [HashBidiMap.insert, HashBidiMap.len, hr, insertA,
    removeA_eq_of_lookupA_none _ _ hltr, List.length_cons]
  exact length_removeA_add_one m.left_to_right k1 k2 hnd hp

theorem len_insert_k1only (m : HashBidiMap K1 K2) (k1 : K1) (k2 k2' : K2)
    (hnd : KeysNodup m.left_to_right)
    (hp : m.get2 k1 = some k2') (hr : m.get1 k2 = none) :
    (m.insert k1 k2).len = m.len := by
  simp only [HashBidiMap.get1] at hr
  simp only [HashBidiMap.get2] at hp
  simp only [HashBidiMap.insert, HashBidiMap.len, hr, insertA, List.length_cons]
  exact length_removeA_add_one m.left_to_right k1 k2' hnd hp

theorem len_insert_k2only (m : HashBidiMap K1 K2) (k1 k1' : K1) (k2 : K2)
    (hnd : KeysNodup m.left_to_right) (hc : m.Consistent)
    (hf : m.get2 k1 = none) (hr : m.get1 k2 = some k1') :
    (m.insert k1 k2).len = m.len := by
  have hk1' : m.get2 k1' = some k2 := (hc k1' k2).mpr hr
  have hne : ¬ k1 = k1' := by
    intro h
    rw [h, hk1'] at hf
    exact Option.noConfusion hf
  simp only [HashBidiMap.get1] at hr
  simp only [HashBidiMap.get2] at hf hk1'
  have hltr : lookupA (removeA m.left_to_right k1') k1 = none := by
    rw [lookupA_removeA, if_neg hne]
    exact hf
  simp only [HashBidiMap.insert, HashBidiMap.len, hr, insertA,
    removeA_eq_of_lookupA_none _ _ hltr, List.length_cons]
  exact length_removeA_add_one m.left_to_right k1' k2 hnd hk1'

theorem len_insert_both (m : HashBidiMap K1 K2) (k1 k1' : K1) (k2 k2' : K2)
    (hnd : KeysNodup m.left_to_right) (hc : m.Consistent)
    (hf : m.get2 k1 = some k2') (hk2 : k2' ≠ k2) (hr : m.get1 k2 = some k1') :
    (m.insert k1 k2).len + 1 = m.len := by
  have hk1' : m.get2 k1' = some k2 := (hc k1' k2).mpr hr
  have hne : ¬ k1 = k1' := by
    intro h
    rw [← h, hf] at hk1'
    exact hk2 (Option.some_inj.mp hk1')
  simp only [HashBidiMap.get1] at hr
  simp only [HashBidiMap.get2] at hf hk1'
  have h1 : (removeA m.left_to_right k1').length + 1 = m.left_to_right.length :=
    length_removeA_add_one m.left_to_right k1' k2 hnd hk1'
  have hltr : lookupA (removeA m.left_to_right k1') k1 = some k2' := by
    rw [lookupA_removeA, if_neg hne]
    exact hf
  have h2 : (removeA (removeA m.left_to_right k1') k1).length + 1 =
      (removeA m.left_to_right k1').length :=
    length_removeA_add_one _ k1 k2' (keysNodup_removeA _ _ hnd) hltr
  simp only [HashBidiMap.insert, HashBidiMap.len, hr, insertA, List.length_cons]
  omega

omit [DecidableEq K1] in
theorem get1_new (k2 : K2) :
    (HashBidiMap.new : HashBidiMap K1 K2).get1 k2 = none := rfl

omit [DecidableEq K2] in
theorem get2_new (k1 : K1) :
    (HashBidiMap.new : HashBidiMap K1 K2).get2 k1 = none := rfl

omit [DecidableEq K1] [DecidableEq K2] in
theorem len_new : (HashBidiMap.new : HashBidiMap K1 K2).len = 0 := rfl

theorem extend_eq_foldl (m : HashBidiMap K1 K2) (ps : List (K1 × K2)) :
    m.extend ps = ps.foldl (fun acc p => acc.insert p.1 p.2) m := by
  induction ps generalizing m with
  | nil => rfl
  | cons p rest ih =>
    rcases p with ⟨k1, k2⟩
    simp only [HashBidiMap.extend, List.foldl]
    exact ih (m.insert k1 k2)

theorem get2_extend_concat (m : HashBidiMap K1 K2) (ps : List (K1 × K2))
    (a : K1) (b : K2) : (m.extend (ps ++ [(a, b)])).get2 a = some b := by
  induction ps generalizing m with
  | nil =>
    show (HashBidiMap.extend m ((a, b) :: [])).get2 a = some b
    simp only [HashBidiMap.extend]
    rw [get2_insert, if_pos rfl]
  | cons p rest ih =>
    rcases p with ⟨k1, k2⟩
    simp only [List.cons_append, HashBidiMap.extend]
    exact ih (m.insert k1 k2)

end EngineLemmas

section Claims

/-- C1: for every engine state reachable from a fresh empty engine by insert
and extend calls, the two tables are mutually consistent (`get2 k1 = some k2`
iff `get1 k2 = some k1`); consequently every present pair `(k1, k2)` satisfies
`get_forward k1 = some k2` and `get_reverse k2 = some k1`, no other present
pair shares `k1` or `k2`, and the two tables hold equally many entries. -/
theorem C1_bijection_invariant {K1 K2 : Type} [DecidableEq K1] [DecidableEq K2]
    (m : HashBidiMap K1 K2) (h : Reachable m) :
    (∀ (k1 : K1) (k2 : K2), m.get2 k1 = some k2 ↔ m.get1 k2 = some k1)
    ∧ (∀ (k1 : K1) (k2 : K2), m.get2 k1 = some k2 →
        m.get1 k2 = some k1 ∧
        ∀ (j1 : K1) (j2 : K2), m.get2 j1 = some j2 →
          ((j1 = k1 → j2 = k2) ∧ (j2 = k2 → j1 = k1)))
    ∧ m.len = m.right_to_left.length := by
  obtain ⟨hL, hR, hc⟩ := reachable_inv m h
  refine ⟨hc, ?_, length_eq_of_inv m ⟨hL, hR, hc⟩⟩
  intro k1 k2 hp
  refine ⟨(hc k1 k2).mp hp, ?_⟩
  intro j1 j2 hj
  constructor
  · intro h1
    rw [h1, hp] at hj
    exact (Option.some_inj.mp hj).symm
  · intro h2
    rw [h2] at hj
    have h1 := (hc j1 k2).mp hj
    have h1' := (hc k1 k2).mp hp
    exact Option.some_inj.mp (h1.symm.trans h1')

/-- Witness for C1 at the concrete reachable state `new.insert 1 2`. -/
theorem C1_bijection_invariant_witness :
    (HashBidiMap.new.insert 1 2 : HashBidiMap Nat Nat).len =
      (HashBidiMap.new.insert 1 2 : HashBidiMap Nat Nat).right_to_left.length :=
  (C1_bijection_invariant (HashBidiMap.new.insert 1 2)
    (Reachable.step HashBidiMap.new 1 2 Reachable.base)).2.2

/-- C2: from a reachable state holding the two distinct pairs `(k1, k2')` and
`(k1', k2)`, inserting `(k1, k2)` removes all four old entries and leaves the
single fresh pair: `get_forward k1 = some k2`, `get_reverse k2 = some k1`,
`get_forward k1' = none`, `get_reverse k2' = none`, and the size drops by
one. -/
theorem C2_double_collision_insert {K1 K2 : Type} [DecidableEq K1]
    [DecidableEq K2] (m : HashBidiMap K1 K2) (h : Reachable m)
    (k1 k1' : K1) (k2 k2' : K2)
    (hf : m.get2 k1 = some k2') (hne2 : k2' ≠ k2)
    (hr : m.get1 k2 = some k1') (hne1 : k1' ≠ k1) :
    (m.insert k1 k2).get2 k1 = some k2
    ∧ (m.insert k1 k2).get1 k2 = some k1
    ∧ (m.insert k1 k2).get2 k1' = none
    ∧ (m.insert k1 k2).get1 k2' = none
    ∧ (m.insert k1 k2).len + 1 = m.len := by
  obtain ⟨hL, hR, hc⟩ := reachable_inv m h
  refine ⟨?_, ?_, ?_, ?_, len_insert_both m k1 k1' k2 k2' hL hc hf hne2 hr⟩
  · rw [get2_insert, if_pos rfl]
  · rw [get1_insert m hc, if_pos rfl]
  · rw [get2_insert, if_neg hne1, if_pos hr]
  · rw [get1_insert m hc, if_neg hne2, if_pos hf]

/-- Witness for C2: state `{(1,10), (2,20)}`, then `insert (1, 20)`. -/
theorem C2_double_collision_insert_witness :
    ((((HashBidiMap.new.insert 1 10).insert 2 20 : HashBidiMap Nat Nat).insert
        1 20).get2 1 = some 20)
    ∧ ((((HashBidiMap.new.insert 1 10).insert 2 20 :
        HashBidiMap Nat Nat).insert 1 20).get1 20 = some 1)
    ∧ ((((HashBidiMap.new.insert 1 10).insert 2 20 :
        HashBidiMap Nat Nat).insert 1 20).get2 2 = none)
    ∧ ((((HashBidiMap.new.insert 1 10).insert 2 20 :
        HashBidiMap Nat Nat).insert 1 20).get1 10 = none)
    ∧ ((((HashBidiMap.new.insert 1 10).insert 2 20 :
        HashBidiMap Nat Nat).insert 1 20).len + 1 =
        ((HashBidiMap.new.insert 1 10).insert 2 20 :
          HashBidiMap Nat Nat).len) :=
  C2_double_collision_insert ((HashBidiMap.new.insert 1 10).insert 2 20)
    (Reachable.step _ 2 20 (Reachable.step _ 1 10 Reachable.base))
    1 2 20 10 (by decide) (by decide) (by decide) (by decide)

/-- C3: the concrete overwrite traces of the source tests: after
`insert 1 "2"` then `insert 2 "2"`, `get_reverse "2" = some 2` and
`get_forward 1 = none`; after additionally `insert 2 "3"`,
`get_reverse "3" = some 2` and `get_reverse "2" = none`. -/
theorem C3_overwrite_traces :
    (((HashBidiMap.new.insert 1 "2").insert 2 "2" :
        HashBidiMap Nat String).get1 "2" = some 2)
    ∧ (((HashBidiMap.new.insert 1 "2").insert 2 "2" :
        HashBidiMap Nat String).get2 1 = none)
    ∧ ((((HashBidiMap.new.insert 1 "2").insert 2 "2").insert 2 "3" :
        HashBidiMap Nat String).get1 "3" = some 2)
    ∧ ((((HashBidiMap.new.insert 1 "2").insert 2 "2").insert 2 "3" :
        HashBidiMap Nat String).get1 "2" = none) := by
  refine ⟨by decide, by decide, by decide, by decide⟩

/-- C4: a fresh engine has size 0; two inserts with all-distinct keys give
size 2; and on any reachable state an insert that shares its `k1` or its `k2`
with a present pair does not increase the size. -/
theorem C4_size_accounting {K1 K2 : Type} [DecidableEq K1] [DecidableEq K2] :
    ((HashBidiMap.new : HashBidiMap K1 K2).len = 0)
    ∧ (∀ (a1 a2 : K1) (b1 b2 : K2), a1 ≠ a2 → b1 ≠ b2 →
        ((HashBidiMap.new.insert a1 b1).insert a2 b2 :
          HashBidiMap K1 K2).len = 2)
    ∧ (∀ (m : HashBidiMap K1 K2) (k1 : K1) (k2 : K2), Reachable m →
        (m.get2 k1 ≠ none ∨ m.get1 k2 ≠ none) →
        (m.insert k1 k2).len ≤ m.len) := by
  refine ⟨rfl, ?_, ?_⟩
  · intro a1 a2 b1 b2 ha hb
    have h1 : (HashBidiMap.new.insert a1 b1 : HashBidiMap K1 K2).get2 a2 =
        none := by
      rw [get2_insert, if_neg (fun hh : a2 = a1 => ha hh.symm), get1_new,
        get2_new]
      simp
    have h2 : (HashBidiMap.new.insert a1 b1 : HashBidiMap K1 K2).get1 b2 =
        none := by
      rw [get1_insert _ inv_new.2.2, if_neg (fun hh : b2 = b1 => hb hh.symm),
        get2_new, get1_new]
      simp
    rw [len_insert_fresh _ _ _ h1 h2,
      len_insert_fresh _ _ _ (get2_new a1) (get1_new b1), len_new]
  · intro m k1 k2 hreach hover
    obtain ⟨hL, hR, hc⟩ := reachable_inv m hreach
    rcases hf : m.get2 k1 with _ | k2' <;> rcases hr : m.get1 k2 with _ | k1'
    · rcases hover with hcon | hcon
      · exact absurd hf hcon
      · exact absurd hr hcon
    · exact Nat.le_of_eq (len_insert_k2only m k1 k1' k2 hL hc hf hr)
    · exact Nat.le_of_eq (len_insert_k1only m k1 k2 k2' hL hf hr)
    · by_cases hk : k2' = k2
      · subst hk
        exact Nat.le_of_eq (len_insert_same m k1 k2' hL hc hf)
      · have := len_insert_both m k1 k1' k2 k2' hL hc hf hk hr
        omega

/-- Witness for C4: inserting `(1, "a")` then `(2, "b")` into a fresh engine
gives size 2. -/
theorem C4_size_accounting_witness :
    ((HashBidiMap.new.insert 1 "a").insert 2 "b" :
      HashBidiMap Nat String).len = 2 :=
  C4_size_accounting.2.1 1 2 "a" "b" (by decide) (by decide)

/-- C5: `extend` equals applying `insert` once per pair in the sequence's
order (a left fold of `insert`), and the concrete example:
`extend [(1,"a"), (2,"b")]` on an empty engine gives
`get_forward 1 = some "a"` and `get_reverse "a" = some 1`. -/
theorem C5_extend_composition {K1 K2 : Type} [DecidableEq K1]
    [DecidableEq K2] :
    (∀ (m : HashBidiMap K1 K2) (ps : List (K1 × K2)),
        m.extend ps = ps.foldl (fun acc p => acc.insert p.1 p.2) m)
    ∧ ((HashBidiMap.new.extend [(1, "a"), (2, "b")] :
        HashBidiMap Nat String).get2 1 = some "a")
    ∧ ((HashBidiMap.new.extend [(1, "a"), (2, "b")] :
        HashBidiMap Nat String).get1 "a" = some 1) :=
  ⟨extend_eq_foldl, by decide, by decide⟩

/-- C6: each view's `get` delegates to the engine (`get2` for the forward
view, `get1` for the reverse view), and whenever the engine lookup returns
`some v` the view's indexed access returns `v`. -/
theorem C6_view_equivalence {K1 K2 : Type} [DecidableEq K1] [DecidableEq K2] :
    (∀ (m : HashBidiMap K1 K2) (k : K1), m.as_map.get k = m.get2 k)
    ∧ (∀ (m : HashBidiMap K1 K2) (k : K2), m.as_inv_map.get k = m.get1 k)
    ∧ (∀ (m : HashBidiMap K1 K2) (k : K1) (v : K2),
        m.get2 k = some v → m.as_map.index k = IndexResult.ok v)
    ∧ (∀ (m : HashBidiMap K1 K2) (k : K2) (v : K1),
        m.get1 k = some v → m.as_inv_map.index k = IndexResult.ok v) := by
  refine ⟨fun m k => rfl, fun m k => rfl, ?_, ?_⟩
  · intro m k v h
    simp only [LeftMap.index, LeftMap.get, HashBidiMap.as_map, h]
  · intro m k v h
    simp only [RightMap.index, RightMap.get, HashBidiMap.as_inv_map, h]

/-- Witness for C6: on the state `{(1,2)}` the forward view's indexed access
at 1 returns 2. -/
theorem C6_view_equivalence_witness :
    (HashBidiMap.new.insert 1 2 : HashBidiMap Nat Nat).as_map.index 1 =
      IndexResult.ok 2 :=
  C6_view_equivalence.2.2.1 (HashBidiMap.new.insert 1 2) 1 2 (by decide)

/-- C7: indexed access on a view ends in a fatal error exactly when the key
is absent in that view's direction, while the view's `get` on the same absent
key returns `none` instead of failing. -/
theorem C7_index_fatal_iff_absent {K1 K2 : Type} [DecidableEq K1]
    [DecidableEq K2] (m : HashBidiMap K1 K2) :
    (∀ k : K1,
      ((∃ msg, m.as_map.index k = IndexResult.fatal msg) ↔
        m.as_map.get k = none)
      ∧ (m.as_map.get k = none ↔ m.get2 k = none))
    ∧ (∀ k : K2,
      ((∃ msg, m.as_inv_map.index k = IndexResult.fatal msg) ↔
        m.as_inv_map.get k = none)
      ∧ (m.as_inv_map.get k = none ↔ m.get1 k = none)) := by
  constructor
  · intro k
    refine ⟨?_, Iff.rfl⟩
    rcases h : m.as_map.get k with _ | v <;>
      simp [LeftMap.index, h]
  · intro k
    refine ⟨?_, Iff.rfl⟩
    rcases h : m.as_inv_map.get k with _ | v <;>
      simp [RightMap.index, h]

/-- C8: re-inserting a pair that is already present leaves the size and both
lookup functions unchanged for every key. -/
theorem C8_idempotent_reinsert {K1 K2 : Type} [DecidableEq K1]
    [DecidableEq K2] (m : HashBidiMap K1 K2) (h : Reachable m)
    (k1 : K1) (k2 : K2) (hp : m.get2 k1 = some k2) :
    (m.insert k1 k2).len = m.len
    ∧ (∀ j1 : K1, (m.insert k1 k2).get2 j1 = m.get2 j1)
    ∧ (∀ j2 : K2, (m.insert k1 k2).get1 j2 = m.get1 j2) := by
  obtain ⟨hL, hR, hc⟩ := reachable_inv m h
  have hr : m.get1 k2 = some k1 := (hc k1 k2).mp hp
  refine ⟨len_insert_same m k1 k2 hL hc hp, ?_, ?_⟩
  · intro j1
    rw [get2_insert]
    by_cases h1 : j1 = k1
    · rw [if_pos h1, h1, hp]
    · rw [if_neg h1,
        if_neg (fun hh : m.get1 k2 = some j1 =>
          h1 (Option.some_inj.mp (hr.symm.trans hh)).symm)]
  · intro j2
    rw [get1_insert m hc]
    by_cases h2 : j2 = k2
    · rw [if_pos h2, h2, hr]
    · rw [if_neg h2,
        if_neg (fun hh : m.get2 k1 = some j2 =>
          h2 (Option.some_inj.mp (hp.symm.trans hh)).symm)]

/-- Witness for C8: re-inserting `(1, 2)` into `{(1,2)}` keeps the size. -/
theorem C8_idempotent_reinsert_witness :
    ((HashBidiMap.new.insert 1 2 : HashBidiMap Nat Nat).insert 1 2).len =
      (HashBidiMap.new.insert 1 2 : HashBidiMap Nat Nat).len :=
  (C8_idempotent_reinsert (HashBidiMap.new.insert 1 2)
    (Reachable.step HashBidiMap.new 1 2 Reachable.base) 1 2 (by decide)).1

/-- C9 counterexample: the claim that the engine provides a remove operation
— a public operation deleting an existing pair without installing a new one —
is false. The engine's only mutators are `insert` and `extend` (which loops
over `insert`), so every mutation is a sequence of inserts, and here it is
proved at the concrete one-pair state `{(1,2)}` that no nonempty sequence of
such calls deletes the pair `(1,2)` while leaving only pairs that were
already present: the last inserted pair is always freshly installed. -/
theorem C9_remove_counterexample :
    ¬ ∃ ops : List (Nat × Nat), ops ≠ [] ∧
        ((HashBidiMap.new.insert 1 2 : HashBidiMap Nat Nat).extend ops).get2 1
          = none ∧
        (∀ (a b : Nat),
          ((HashBidiMap.new.insert 1 2 :
            HashBidiMap Nat Nat).extend ops).get2 a = some b →
          (HashBidiMap.new.insert 1 2 : HashBidiMap Nat Nat).get2 a =
            some b) := by
  rintro ⟨ops, hne, hgone, hnonew⟩
  obtain ⟨ps, a, b, rfl⟩ :
      ∃ (ps : List (Nat × Nat)) (a b : Nat), ops = ps ++ [(a, b)] := by
    rcases List.eq_nil_or_concat ops with h | ⟨ps, p, h⟩
    · exact absurd h hne
    · rcases p with ⟨a, b⟩
      exact ⟨ps, a, b, by simpa [List.concat_eq_append] using h⟩
  have hlast := get2_extend_concat (HashBidiMap.new.insert 1 2) ps a b
  have hold := hnonew a b hlast
  have ha : a = 1 := by
    by_contra h
    have hnone : (HashBidiMap.new.insert 1 2 : HashBidiMap Nat Nat).get2 a =
        none := by
      rw [get2_insert, if_neg h, get1_new, get2_new]
      simp
    rw [hnone] at hold
    exact Option.noConfusion hold
  subst ha
  exact Option.noConfusion (hgone.symm.trans hlast)

/-- C9 amended: the engine has no remove operation; its only mutators are
`insert` and `extend`, a loop of inserts, and every mutation installs a pair:
a single `insert a b` makes `(a, b)` present, and any nonempty mutation
sequence leaves its last pair installed, so no public operation deletes an
existing pair without installing a new one. -/
theorem C9_no_remove_operation {K1 K2 : Type} [DecidableEq K1]
    [DecidableEq K2] (m : HashBidiMap K1 K2) (ps : List (K1 × K2))
    (a : K1) (b : K2) :
    ((m.insert a b).get2 a = some b)
    ∧ ((m.extend (ps ++ [(a, b)])).get2 a = some b)
    ∧ (m.extend ps = ps.foldl (fun acc p => acc.insert p.1 p.2) m) := by
  refine ⟨?_, get2_extend_concat m ps a b, extend_eq_foldl m ps⟩
  rw [get2_insert, if_pos rfl]

/-- C10: inserting `(k1, k2)` leaves every non-colliding present pair
`(j1, j2)` (with `j1 ≠ k1` and `j2 ≠ k2`) untouched in both directions. -/
theorem C10_insert_frame {K1 K2 : Type} [DecidableEq K1] [DecidableEq K2]
    (m : HashBidiMap K1 K2) (h : Reachable m) (k1 j1 : K1) (k2 j2 : K2)
    (hp : m.get2 j1 = some j2) (h1 : j1 ≠ k1) (h2 : j2 ≠ k2) :
    (m.insert k1 k2).get2 j1 = some j2
    ∧ (m.insert k1 k2).get1 j2 = some j1 := by
  obtain ⟨hL, hR, hc⟩ := reachable_inv m h
  have hq : m.get1 j2 = some j1 := (hc j1 j2).mp hp
  constructor
  · rw [get2_insert, if_neg h1,
      if_neg (fun hh : m.get1 k2 = some j1 =>
        h2 (Option.some_inj.mp (hp.symm.trans ((hc j1 k2).mpr hh))))]
    exact hp
  · rw [get1_insert m hc, if_neg h2,
      if_neg (fun hh : m.get2 k1 = some j2 =>
        h1 (Option.some_inj.mp (hq.symm.trans ((hc k1 j2).mp hh))))]
    exact hq

/-- Witness for C10: in `{(1,10)}`, inserting `(2,20)` leaves `(1,10)`
present in both directions. -/
theorem C10_insert_frame_witness :
    ((HashBidiMap.new.insert 1 10 : HashBidiMap Nat Nat).insert 2 20).get2 1 =
      some 10
    ∧ ((HashBidiMap.new.insert 1 10 :
        HashBidiMap Nat Nat).insert 2 20).get1 10 = some 1 :=
  C10_insert_frame (HashBidiMap.new.insert 1 10)
    (Reachable.step HashBidiMap.new 1 10 Reachable.base)
    2 1 20 10 (by decide) (by decide) (by decide)

end Claims
